import Mathlib

/-!
Shallow embedding of the hybrid vector-search / recommendation core of the
repository, together with theorems settling the frozen claims about it.

All numeric quantities that are Python floats in the source are modelled as
exact rationals (`ℚ`); lists of floats become `List ℚ`.  Python dicts whose
insertion order is observable are modelled as association lists that update
in place and append fresh keys at the end, exactly as CPython dicts do.
-/

namespace RagApp

/-! ## Vector helpers (numpy-style operations used by the source) -/

/-- Pointwise scaling of a vector, `c * v` (numpy scalar broadcast). -/
def vecScale (c : ℚ) (v : List ℚ) : List ℚ := v.map (fun x => c * x)

/-- Pointwise addition of two vectors (numpy `+`; vectors have equal length
in every call site of the source). -/
def vecAdd (u v : List ℚ) : List ℚ := List.zipWith (fun a b => a + b) u v

/-- Squared L2 norm of a vector. -/
def sumSq (v : List ℚ) : ℚ := (v.map (fun x => x * x)).sum

/-- `v` has unit L2 norm within the spec's `1e-6` tolerance:
`|‖v‖ - 1| ≤ 1e-6`, stated on the squared norm to stay inside `ℚ`
(equivalent because both sides of the inequality are nonnegative). -/
def UnitNormWithinTol (v : List ℚ) : Prop :=
  (1 - 1/1000000)^2 ≤ sumSq v ∧ sumSq v ≤ (1 + 1/1000000)^2

instance (v : List ℚ) : Decidable (UnitNormWithinTol v) := by
  unfold UnitNormWithinTol; infer_instance

/-- `dict.get(key, default)` on an insertion-ordered association list. -/
def dictGetD (m : List (String × ℚ)) (k : String) (d : ℚ) : ℚ :=
  match m.lookup k with
  | some v => v
  | none => d

/-! ## User Profile Updater (`rag_app/services/recommendation_service.py`)

`capture_interaction` updates the stored user profile from one interaction:
taste vector blend, budget update, category affinity bump and bounded
interaction history.  The Qdrant round trips are abstracted away: the
product's vector, price and category are the inputs already extracted by
lines 56-69 of the source. -/

/-- `INTERACTION_WEIGHTS` (recommendation_service.py lines 20-25). -/
def INTERACTION_WEIGHTS : List (String × ℚ) :=
  [("view", 1/10), ("wishlist", 3/10), ("cart", 1/2), ("purchase", 1)]

/-- `INTERACTION_WEIGHTS.get(interaction_type, 0.1)` (line 87). -/
def interactionWeight (t : String) : ℚ := dictGetD INTERACTION_WEIGHTS t (1/10)

/-- `new_vector = [(ov * (1 - weight)) + (pv * weight) for ov, pv in zip(old_vector, product_vector)]`
(line 105).  No normalization is applied by the source. -/
def blendVector (oldVec productVec : List ℚ) (w : ℚ) : List ℚ :=
  List.zipWith (fun ov pv => ov * (1 - w) + pv * w) oldVec productVec

/-- The `budget` dict of a user profile payload: keys `min`, `max`,
`confidence`. -/
structure Budget where
  min : ℚ
  max : ℚ
  confidence : ℚ
deriving DecidableEq, Repr

/-- Budget update of `capture_interaction` (lines 111-120): a purchase pulls
`min`/`max` halfway toward `price*0.7`/`price*1.5` and adds `0.2` to the
confidence (capped at `1.0`); any other interaction widens
`min`/`max` to cover `price*0.5`/`price*1.5` and adds `0.05` (same cap). -/
def updateBudget (t : String) (b : Budget) (price : ℚ) : Budget :=
  if t = "purchase" then
    { min := b.min * (1/2) + price * (1/2) * (7/10)
      max := b.max * (1/2) + price * (1/2) * (3/2)
      confidence := min (b.confidence + 2/10) 1 }
  else
    { min := min b.min (price * (1/2))
      max := max b.max (price * (3/2))
      confidence := min (b.confidence + 5/100) 1 }

/-- Cold-start budget (line 94): `{"min": price*0.7, "max": price*1.3, "confidence": 0.3}`. -/
def coldBudget (price : ℚ) : Budget :=
  { min := price * (7/10), max := price * (13/10), confidence := 3/10 }

/-- One entry of the profile's `interactions` history (timestamp omitted:
it never influences any computation the claims are about). -/
structure InteractionRec where
  id : String
  type : String
deriving DecidableEq, Repr

/-- The mutable part of a stored user profile (point vector + payload). -/
structure UserProfile where
  vector : List ℚ
  budget : Budget
  preferred_categories : List (String × Nat)
  interactions : List InteractionRec
deriving DecidableEq, Repr

/-- `cats[product_category] = cats.get(product_category, 0) + 1` (lines 123-124),
with CPython dict semantics: existing key updated in place, fresh key appended. -/
def bumpCategory (cats : List (String × Nat)) (cat : String) : List (String × Nat) :=
  if (cats.lookup cat).isSome then
    cats.map (fun p => if p.1 = cat then (p.1, p.2 + 1) else p)
  else
    cats ++ [(cat, 1)]

/-- `history[-20:]`: the last `n` elements of a list. -/
def takeLast (n : Nat) (l : List α) : List α := l.drop (l.length - n)

/-- Update branch of `capture_interaction` for an existing profile
(lines 101-136): blended (unnormalized) taste vector, budget update,
category bump, history append truncated to the last 20 entries. -/
def updateProfile (prof : UserProfile) (t : String) (pid : String)
    (productVec : List ℚ) (price : ℚ) (cat : String) : UserProfile :=
  { vector := blendVector prof.vector productVec (interactionWeight t)
    budget := updateBudget t prof.budget price
    preferred_categories := bumpCategory prof.preferred_categories cat
    interactions := takeLast 20 (prof.interactions ++ [⟨pid, t⟩]) }

/-- Cold-start branch of `capture_interaction` (lines 89-100): the taste
vector is the product vector itself. -/
def coldStartProfile (t : String) (pid : String) (productVec : List ℚ)
    (price : ℚ) (cat : String) : UserProfile :=
  { vector := productVec
    budget := coldBudget price
    preferred_categories := [(cat, 1)]
    interactions := [⟨pid, t⟩] }

/-- `capture_interaction` as a state transition on the optional stored
profile (the Qdrant lookup/upsert round trip is the identity on this data). -/
def captureInteraction (prof? : Option UserProfile) (t : String) (pid : String)
    (productVec : List ℚ) (price : ℚ) (cat : String) : UserProfile :=
  match prof? with
  | none => coldStartProfile t pid productVec price cat
  | some prof => updateProfile prof t pid productVec price cat

/-- Interaction-type weight table of the collaborative scorer
(`collaborative_recommendation.py` lines 212-217), including its `.get`
default of `0.1`. -/
def collabTypeWeight (t : String) : ℚ :=
  dictGetD [("purchase", 1), ("cart", 7/10), ("wishlist", 1/2), ("view", 2/10)] t (1/10)

/-! ## Deterministic ID Mapper (`rag_app/core/database.py` lines 125-138)

`get_deterministic_id` parses all-digit strings directly and otherwise
hashes with `hashlib.sha256`, interpreting the hex digest as an integer
reduced modulo `10^18`.  SHA-256 is embedded below executably over `Nat`,
with 32-bit words represented as naturals `< 2^32` and overflow made
explicit by `% 2^32`. -/

/-- Bitwise XOR on the low `fuel` bits (structural recursion over bits, so
that the kernel can evaluate it cheaply). -/
def bitXor : Nat → Nat → Nat → Nat
  | 0, _, _ => 0
  | k+1, a, b => ((a % 2 + b % 2) % 2) + 2 * bitXor k (a / 2) (b / 2)

/-- Bitwise AND on the low `fuel` bits. -/
def bitAnd : Nat → Nat → Nat → Nat
  | 0, _, _ => 0
  | k+1, a, b => (a % 2) * (b % 2) + 2 * bitAnd k (a / 2) (b / 2)

/-- 32-bit XOR. -/
def xor32 (a b : Nat) : Nat := bitXor 32 a b

/-- 32-bit AND. -/
def and32 (a b : Nat) : Nat := bitAnd 32 a b

/-- 32-bit complement. -/
def not32 (a : Nat) : Nat := (2^32 - 1) - a % 2^32

/-- 32-bit right rotation by `n`. -/
def rotr32 (n x : Nat) : Nat := x % 2^32 / 2^n + x % 2^n * 2^(32 - n)

/-- 32-bit logical right shift by `n`. -/
def shr32 (n x : Nat) : Nat := x % 2^32 / 2^n

/-- SHA-256 message-schedule sigma-0: `rotr 7 ⊕ rotr 18 ⊕ shr 3`. -/
def smallSigma0 (x : Nat) : Nat := xor32 (xor32 (rotr32 7 x) (rotr32 18 x)) (shr32 3 x)

/-- SHA-256 message-schedule sigma-1: `rotr 17 ⊕ rotr 19 ⊕ shr 10`. -/
def smallSigma1 (x : Nat) : Nat := xor32 (xor32 (rotr32 17 x) (rotr32 19 x)) (shr32 10 x)

/-- SHA-256 round Sigma-0: `rotr 2 ⊕ rotr 13 ⊕ rotr 22`. -/
def bigSigma0 (x : Nat) : Nat := xor32 (xor32 (rotr32 2 x) (rotr32 13 x)) (rotr32 22 x)

/-- SHA-256 round Sigma-1: `rotr 6 ⊕ rotr 11 ⊕ rotr 25`. -/
def bigSigma1 (x : Nat) : Nat := xor32 (xor32 (rotr32 6 x) (rotr32 11 x)) (rotr32 25 x)

/-- SHA-256 choice function. -/
def sha256Ch (e f g : Nat) : Nat := xor32 (and32 e f) (and32 (not32 e) g)

/-- SHA-256 majority function. -/
def sha256Maj (a b c : Nat) : Nat := xor32 (xor32 (and32 a b) (and32 a c)) (and32 b c)

/-- The 64 SHA-256 round constants (FIPS 180-4, in decimal). -/
def sha256K : List Nat :=
  [1116352408, 1899447441, 3049323471, 3921009573, 961987163, 1508970993,
   2453635748, 2870763221, 3624381080, 310598401, 607225278, 1426881987,
   1925078388, 2162078206, 2614888103, 3248222580, 3835390401, 4022224774,
   264347078, 604807628, 770255983, 1249150122, 1555081692, 1996064986,
   2554220882, 2821834349, 2952996808, 3210313671, 3336571891, 3584528711,
   113926993, 338241895, 666307205, 773529912, 1294757372, 1396182291,
   1695183700, 1986661051, 2177026350, 2456956037, 2730485921, 2820302411,
   3259730800, 3345764771, 3516065817, 3600352804, 4094571909, 275423344,
   430227734, 506948616, 659060556, 883997877, 958139571, 1322822218,
   1537002063, 1747873779, 1955562222, 2024104815, 2227730452, 2361852424,
   2428436474, 2756734187, 3204031479, 3329325298]

/-- SHA-256 working registers. -/
structure Sha256Regs where
  a : Nat
  b : Nat
  c : Nat
  d : Nat
  e : Nat
  f : Nat
  g : Nat
  h : Nat
deriving Repr, DecidableEq

/-- Initial SHA-256 hash state (FIPS 180-4, in decimal). -/
def sha256H0 : Sha256Regs :=
  ⟨1779033703, 3144134277, 1013904242, 2773480762,
   1359893119, 2600822924, 528734635, 1541459225⟩

/-- One SHA-256 compression round with round constant and schedule word `kw`. -/
def sha256Round (st : Sha256Regs) (kw : Nat × Nat) : Sha256Regs :=
  let t1 := (st.h + bigSigma1 st.e + sha256Ch st.e st.f st.g + kw.1 + kw.2) % 2^32
  let t2 := (bigSigma0 st.a + sha256Maj st.a st.b st.c) % 2^32
  ⟨(t1 + t2) % 2^32, st.a, st.b, st.c, (st.d + t1) % 2^32, st.e, st.f, st.g⟩

/-- Extend the (reversed) message schedule by `fuel` further words. -/
def extendSched : Nat → List Nat → List Nat
  | 0, ws => ws
  | k+1, ws =>
      let w := (smallSigma1 (ws.getD 1 0) + ws.getD 6 0 + smallSigma0 (ws.getD 14 0) + ws.getD 15 0) % 2^32
      extendSched k (w :: ws)

/-- Full 64-word message schedule of one 16-word block. -/
def sha256Schedule (block : List Nat) : List Nat := (extendSched 48 block.reverse).reverse

/-- Compress one 16-word block into the running hash state. -/
def sha256CompressBlock (H : Sha256Regs) (block : List Nat) : Sha256Regs :=
  let fin := ((sha256Schedule block).zip sha256K).foldl sha256Round H
  ⟨(H.a + fin.a) % 2^32, (H.b + fin.b) % 2^32, (H.c + fin.c) % 2^32, (H.d + fin.d) % 2^32,
   (H.e + fin.e) % 2^32, (H.f + fin.f) % 2^32, (H.g + fin.g) % 2^32, (H.h + fin.h) % 2^32⟩

/-- Big-endian byte expansion of `n` to `k` bytes. -/
def beBytes : Nat → Nat → List Nat
  | 0, _ => []
  | k+1, n => beBytes k (n / 256) ++ [n % 256]

/-- SHA-256 padding: `0x80`, zeros to 56 mod 64, 8-byte big-endian bit length. -/
def sha256Pad (msg : List Nat) : List Nat :=
  let L := msg.length
  msg ++ [128] ++ List.replicate ((64 - (L + 9) % 64) % 64) 0 ++ beBytes 8 (8 * L)

/-- Group a byte list into big-endian 32-bit words. -/
def wordsOfBytes : List Nat → List Nat
  | b0 :: b1 :: b2 :: b3 :: rest => (((b0 * 256 + b1) * 256 + b2) * 256 + b3) :: wordsOfBytes rest
  | _ => []

/-- Split a word list into 16-word blocks (`fuel ≥ length` suffices). -/
def chunk16 : Nat → List Nat → List (List Nat)
  | 0, _ => []
  | _+1, [] => []
  | k+1, ws => ws.take 16 :: chunk16 k (ws.drop 16)

/-- UTF-8 encoding of one code point. -/
def utf8EncodeCp (c : Nat) : List Nat :=
  if c < 0x80 then [c]
  else if c < 0x800 then [0xc0 + c / 64, 0x80 + c % 64]
  else if c < 0x10000 then [0xe0 + c / 4096, 0x80 + c / 64 % 64, 0x80 + c % 64]
  else [0xf0 + c / 262144, 0x80 + c / 4096 % 64, 0x80 + c / 64 % 64, 0x80 + c % 64]

/-- UTF-8 bytes of a string (`str.encode()` in the source). -/
def utf8Bytes (s : String) : List Nat := (s.data.map (fun c => utf8EncodeCp c.toNat)).flatten

/-- The eight final SHA-256 hash words of a byte message. -/
def sha256Words (msg : List Nat) : List Nat :=
  let ws := wordsOfBytes (sha256Pad msg)
  let fin := (chunk16 ws.length ws).foldl sha256CompressBlock sha256H0
  [fin.a, fin.b, fin.c, fin.d, fin.e, fin.f, fin.g, fin.h]

/-- `int(hashlib.sha256(s.encode()).hexdigest(), 16)`: the digest read as a
big-endian integer. -/
def sha256Int (s : String) : Nat :=
  (sha256Words (utf8Bytes s)).foldl (fun acc w => acc * 2^32 + w) 0

/-- `str(source_id).isdigit()` restricted to ASCII decimal digits (the only
digits exercised by this repository's identifiers). -/
def isAllDigits (s : String) : Bool := !s.data.isEmpty && s.data.all Char.isDigit

/-- `int(s)` on an all-digit string: decimal parse. -/
def parseDigits (s : String) : Nat := s.data.foldl (fun n c => n * 10 + (c.toNat - 48)) 0

/-- `get_deterministic_id` (database.py lines 125-138). -/
def get_deterministic_id (s : String) : Nat :=
  if isAllDigits s then parseDigits s else sha256Int s % 10^18

/-! ## Query Vector Builder / by-seed recommendations
(`rag_app/api/recommendations.py`, `_recommendations_by_seed_impl`,
lines 95-178)

The external collaborators are abstracted as an environment record:
`retrieve` is the Qdrant point lookup (returning the named vector, `none`
when the point is missing, the retrieval raised, or the vector is absent),
`embed` is the embedding service (`none` when embedding raised), and
`search` is the downstream nearest-neighbour query returning scored ids.
The source function cannot raise on its empty-input paths — it returns a
plain list — so its outcome is embedded in an `Except` codomain purely to
make the spec's `EmptySeedError` claim statable: every `return` of the
source maps to `Except.ok`. -/

/-- Failure taxonomy named by the spec for the Query Vector Builder. -/
inductive SeedFailure where
  | emptySeed
deriving DecidableEq, Repr

/-- Environment of external collaborators of the by-seed implementation. -/
structure SeedEnv where
  retrieve : String → Option (List ℚ)
  embed : String → Option (List ℚ)
  search : List ℚ → Nat → List (String × ℚ)

/-- One mapped output record of the by-seed endpoint. -/
structure SeedRec where
  id : String
  score : ℚ
  explanation : String
  sources : List String
deriving DecidableEq, Repr

/-- Truthiness of `search_query and search_query.strip()`. -/
def queryActive (q : Option String) : Bool :=
  match q with
  | none => false
  | some s => !(s.trim == "")

/-- `w = 2.0 if pid_str in cart_ids else (1.5 if pid_str in wishlist_ids else 1.0)`
(line 130). -/
def seedWeight (cartIds wishlistIds : List String) (pid : String) : ℚ :=
  if pid ∈ cartIds then 2 else if pid ∈ wishlistIds then 3/2 else 1

/-- Vector retrieval including the `if v:` truthiness guard of line 129
(an empty vector list is falsy in Python and is skipped). -/
def retrievedVec (env : SeedEnv) (pid : String) : Option (List ℚ) :=
  match env.retrieve pid with
  | some v => if v.isEmpty then none else some v
  | none => none

/-- The `weighted` list built by lines 114-141: one `(vector, weight)` pair
per resolvable seed id among the first 50, plus the embedded stripped query
text with weight `1.5` when present. -/
def collectWeighted (env : SeedEnv) (rawIds cartIds wishlistIds : List String)
    (q : Option String) : List (List ℚ × ℚ) :=
  let fromSeeds := (rawIds.take 50).filterMap
    (fun pid => (retrievedVec env pid).map (fun v => (v, seedWeight cartIds wishlistIds pid)))
  if queryActive q then
    match q with
    | some s =>
        match env.embed s.trim with
        | some qv => fromSeeds ++ [(qv, 3/2)]
        | none => fromSeeds
    | none => fromSeeds
  else fromSeeds

/-- `Σᵢ wᵢ·vᵢ` over a weighted vector list (numpy accumulates over equal
dimensions at every call site). -/
def weightedSum : List (List ℚ × ℚ) → List ℚ
  | [] => []
  | [p] => vecScale p.2 p.1
  | p :: rest => vecAdd (vecScale p.2 p.1) (weightedSum rest)

/-- `Σᵢ vᵢ` over a vector list. -/
def plainSum : List (List ℚ) → List ℚ
  | [] => []
  | [v] => v
  | v :: rest => vecAdd v (plainSum rest)

/-- `np.average(vectors, axis=0, weights=weights) if total_w > 0 else np.mean(vectors, axis=0)`
(line 148).  No L2 normalization is applied by the source. -/
def avgVector (wvs : List (List ℚ × ℚ)) : List ℚ :=
  let total := (wvs.map (fun p => p.2)).sum
  if 0 < total then vecScale (1/total) (weightedSum wvs)
  else vecScale (1/(wvs.length : ℚ)) (plainSum (wvs.map (fun p => p.1)))

/-- `seed_str`: the string forms of both the raw seed id and its derived
deterministic integer id, for every seed whose vector was retrieved
(lines 132-133 and 163). -/
def seedStrings (env : SeedEnv) (rawIds : List String) : List String :=
  ((rawIds.take 50).filter (fun pid => (retrievedVec env pid).isSome)).foldr
    (fun pid acc => Nat.repr (get_deterministic_id pid) :: pid :: acc) []

/-- The result-assembly loop of lines 164-177: skip seed ids and already
seen ids, tag each kept record, stop once `limit` records are kept. -/
def dedupLoop (seedStr : List String) (limit : Nat) :
    List (String × ℚ) → List String → Nat → List SeedRec
  | [], _, _ => []
  | (rid, sc) :: rest, seen, outLen =>
      if rid ∈ seedStr ∨ rid ∈ seen then dedupLoop seedStr limit rest seen outLen
      else
        let r : SeedRec := ⟨rid, sc, "Similaire à vos favoris / panier / recherche", ["by-seed"]⟩
        if limit ≤ outLen + 1 then [r]
        else r :: dedupLoop seedStr limit rest (rid :: seen) (outLen + 1)

/-- `_recommendations_by_seed_impl` (lines 95-178). -/
def recommendations_by_seed_impl (env : SeedEnv) (rawIds : List String)
    (q : Option String) (limit : Nat) (cartIds wishlistIds : List String) :
    Except SeedFailure (List SeedRec) :=
  if rawIds.isEmpty && !queryActive q then Except.ok []
  else
    let wvs := collectWeighted env rawIds cartIds wishlistIds q
    if wvs.isEmpty then Except.ok []
    else
      let recs := env.search (avgVector wvs) (limit + rawIds.length + 5)
      Except.ok (dedupLoop (seedStrings env rawIds) limit recs [] 0)

/-! ## Diversity Reranker (`rag_app/core/qdrant_ops.py` lines 346-388)

`rerank_by_brand_diversity` greedily rebuilds the list: at each step it
picks, by a first-wins strict-greater scan, the highest-scoring remaining
item whose normalized brand differs from the previously placed one, and
falls back to the overall first highest-scoring remaining item when every
remaining item carries the forbidden brand. -/

/-- The fields of one mapped item the reranker reads (`brand` of a payload
with no brand key is the empty string). -/
structure Item where
  id : Nat
  brand : String
  score : ℚ
deriving DecidableEq, Repr, Inhabited

/-- `item.get("brand", "").strip().lower()`, empty mapped to `"unknown"`
(lines 361-363). -/
def normBrand (it : Item) : String :=
  let b := it.brand.trim.toLower
  if b = "" then "unknown" else b

/-- The scan of lines 360-371: over the remaining items (paired with their
indices starting at `i`), keep the first index of maximal score among items
whose normalized brand differs from `lb`; `none` when no such item exists.
`acc` is the best candidate so far; a later item replaces it only when its
score is strictly greater. -/
def scanDiverse (lb : Option String) : List Item → Nat → Option (Nat × ℚ) → Option (Nat × ℚ)
  | [], _, acc => acc
  | x :: xs, i, acc =>
      scanDiverse lb xs (i+1)
        (if some (normBrand x) ≠ lb then
          match acc with
          | none => some (i, x.score)
          | some (bi, bs) => if bs < x.score then some (i, x.score) else some (bi, bs)
        else acc)

/-- The fallback scan of lines 373-380: the first index of overall maximal
score, starting from index 0 with the head's score. -/
def scanMax : List Item → Nat → Nat → ℚ → Nat × ℚ
  | [], _, bi, bs => (bi, bs)
  | x :: xs, i, bi, bs =>
      if bs < x.score then scanMax xs (i+1) i x.score else scanMax xs (i+1) bi bs

/-- Index of the item chosen by one iteration of the `while remaining` loop. -/
def chooseIdx (lb : Option String) (l : List Item) : Nat :=
  match scanDiverse lb l 0 none with
  | some (i, _) => i
  | none => (scanMax l 0 0 (l.headD default).score).1

/-- The `while remaining` loop (lines 355-386), with the loop's progress
made explicit by a fuel argument (`fuel ≥ remaining.length` suffices since
each iteration removes exactly one item). -/
def rerankLoop : Nat → Option String → List Item → List Item
  | 0, _, _ => []
  | n+1, lb, l =>
      if l = [] then []
      else
        l.getD (chooseIdx lb l) default ::
          rerankLoop n (some (normBrand (l.getD (chooseIdx lb l) default)))
            (l.eraseIdx (chooseIdx lb l))

/-- `rerank_by_brand_diversity` (lines 346-388). -/
def rerank_by_brand_diversity (items : List Item) : List Item :=
  if items.length ≤ 1 then items else rerankLoop items.length none items

/-! ## Hybrid combine (`rag_app/services/collaborative_recommendation.py`
lines 20-22 and 276-323)

`_combine_recommendations` merges the personal and collaborative candidate
lists through an insertion-ordered dict keyed by item id, excluding items
in the user's interaction history, and sorts by `final_score` descending
(CPython's stable sort with `reverse=True`). -/

/-- `WEIGHT_PERSONAL` (line 21). -/
def WEIGHT_PERSONAL : ℚ := 40/100

/-- `WEIGHT_COLLABORATIVE` (line 22). -/
def WEIGHT_COLLABORATIVE : ℚ := 60/100

/-- A personal candidate: `_get_personal_recommendations` sets
`personal_score` on every record it returns. -/
structure PersonalRec where
  id : String
  personal_score : ℚ
deriving DecidableEq, Repr

/-- A collaborative candidate: `_get_collaborative_recommendations` sets
`collaborative_score` on every record it returns. -/
structure CollabRec where
  id : String
  collaborative_score : ℚ
deriving DecidableEq, Repr

/-- One entry of `product_map` / the combined output. -/
structure CombinedRec where
  id : String
  final_score : ℚ
  sources : List String
deriving DecidableEq, Repr

/-- `product_id in product_map` on the insertion-ordered dict model. -/
def hasId (m : List CombinedRec) (i : String) : Bool := m.any (fun e => e.id == i)

/-- The personal entry written by lines 299-301. -/
def mkPersonal (r : PersonalRec) : CombinedRec :=
  ⟨r.id, r.personal_score * WEIGHT_PERSONAL, ["personal"]⟩

/-- The collaborative entry written by lines 315-317. -/
def mkCollab (c : CollabRec) : CombinedRec :=
  ⟨c.id, c.collaborative_score * WEIGHT_COLLABORATIVE, ["collaborative"]⟩

/-- Lines 310-313: boost an existing entry by the collaborative
contribution. -/
def boostCollab (e : CombinedRec) (c : CollabRec) : CombinedRec :=
  ⟨e.id, e.final_score + c.collaborative_score * WEIGHT_COLLABORATIVE, e.sources ++ ["collaborative"]⟩

/-- One iteration of the personal loop (lines 294-301): skip ids in the
interaction history, otherwise write (overwriting in place, appending when
fresh — CPython dict assignment). -/
def personalStep (viewed : List String) (m : List CombinedRec) (r : PersonalRec) :
    List CombinedRec :=
  if r.id ∈ viewed then m
  else if hasId m r.id then m.map (fun e => if e.id = r.id then mkPersonal r else e)
  else m ++ [mkPersonal r]

/-- One iteration of the collaborative loop (lines 304-317). -/
def collabStep (viewed : List String) (m : List CombinedRec) (c : CollabRec) :
    List CombinedRec :=
  if c.id ∈ viewed then m
  else if hasId m c.id then m.map (fun e => if e.id = c.id then boostCollab e c else e)
  else m ++ [mkCollab c]

/-- Descending order on `final_score` (ties allowed on both sides). -/
def finalDescRel (a b : CombinedRec) : Prop := b.final_score ≤ a.final_score

instance : DecidableRel finalDescRel :=
  fun a b => inferInstanceAs (Decidable (b.final_score ≤ a.final_score))

instance : IsTotal CombinedRec finalDescRel :=
  ⟨fun a b => le_total b.final_score a.final_score⟩

instance : IsTrans CombinedRec finalDescRel :=
  ⟨fun _ _ _ h1 h2 => le_trans h2 h1⟩

/-- `combined.sort(key=lambda x: x.get("final_score", 0), reverse=True)`:
CPython's sort is stable, and so is `List.insertionSort` with this
relation, which places an earlier element before later equal-score ones. -/
def sortByFinalScoreDesc (l : List CombinedRec) : List CombinedRec :=
  l.insertionSort finalDescRel

/-- `_combine_recommendations` (lines 276-323); `viewed` is the id set of
the user's `interactions` payload. -/
def combine_recommendations (personal : List PersonalRec) (collab : List CollabRec)
    (viewed : List String) : List CombinedRec :=
  sortByFinalScoreDesc (collab.foldl (collabStep viewed) (personal.foldl (personalStep viewed) []))

/-- The unique collaborative candidate that touches map key `i` (none when
`i` is absent from the collaborative list or blocked by the interaction
history). -/
def collabFor (collab : List CollabRec) (viewed : List String) (i : String) : Option CollabRec :=
  collab.find? (fun c => c.id == i && !(decide (c.id ∈ viewed)))

/-- The net effect of the collaborative loop on one already-present map
entry: boosted by its unique matching collaborative candidate, if any. -/
def augBy (collab : List CollabRec) (viewed : List String) (e : CombinedRec) : CombinedRec :=
  match collabFor collab viewed e.id with
  | some c => boostCollab e c
  | none => e

/-- The map entries freshly appended by the collaborative loop: candidates
neither blocked by the history nor already keyed in the map. -/
def newCollabEntries (collab : List CollabRec) (viewed : List String)
    (m : List CombinedRec) : List CombinedRec :=
  (collab.filter (fun c => !(decide (c.id ∈ viewed)) && !(hasId m c.id))).map mkCollab

/-- Concrete environment with two orthogonal unit seed vectors. -/
def envTwoSeeds : SeedEnv :=
  { retrieve := fun pid =>
      if pid = "a" then some [1, 0] else if pid = "b" then some [0, 1] else none
    embed := fun _ => none
    search := fun _ _ => [] }

/-- Environment in which nothing resolves: every lookup and embedding
fails and the store returns nothing. -/
def emptyEnv : SeedEnv :=
  { retrieve := fun _ => none, embed := fun _ => none, search := fun _ _ => [] }

/-- Specification predicate for the Diversity Reranker claim: walking the
output list, whenever the next placed item shares the previous item's
normalized brand, every item of the still-unplaced pool carried that brand
and the placed item has maximal score in the pool; the pool shrinks by the
placed item at each step.  The pool is a multiset because only membership
matters to the property. -/
def AdjacentOK : Option String → Multiset Item → List Item → Prop
  | _, _, [] => True
  | lb, rem, y :: ys =>
      (some (normBrand y) = lb →
        (∀ x ∈ rem, some (normBrand x) = lb) ∧ ∀ x ∈ rem, x.score ≤ y.score) ∧
      AdjacentOK (some (normBrand y)) (rem.erase y) ys

/-! # Theorems -/

set_option maxRecDepth 200000 in
/-- Sanity anchor for the SHA-256 embedding: the NIST test vector for
`"abc"`, matching `hashlib.sha256(b"abc").hexdigest()`. -/
theorem sha256Int_abc :
    sha256Int "abc" = 0xba7816bf8f01cfea414140de5dae2223b00361a396177a9cb410ff61f20015ad := by
  decide

/-- C6: `get_deterministic_id` parses all-digit strings directly (in
particular `"42" ↦ 42`) and otherwise reduces the SHA-256 digest integer
modulo `10^18`, hence lands in `[0, 10^18)`; as a function it is pure by
construction, so equal inputs give equal outputs across calls. -/
theorem get_deterministic_id_spec (s : String) :
    (isAllDigits s = true → get_deterministic_id s = parseDigits s) ∧
    (isAllDigits s = false →
      get_deterministic_id s = sha256Int s % 10^18 ∧ get_deterministic_id s < 10^18) ∧
    get_deterministic_id "42" = 42 := by
  refine ⟨fun h => ?_, fun h => ?_, by decide⟩
  · simp [get_deterministic_id, h]
  · have he : get_deterministic_id s = sha256Int s % 10^18 := by
      simp [get_deterministic_id, h]
    exact ⟨he, he ▸ Nat.mod_lt _ (by norm_num)⟩

/-- Witness for C6 at the non-digit input `"sku-ABC"`. -/
theorem get_deterministic_id_spec_witness :
    isAllDigits "sku-ABC" = false ∧
    get_deterministic_id "sku-ABC" = sha256Int "sku-ABC" % 10^18 ∧
    get_deterministic_id "sku-ABC" < 10^18 :=
  ⟨by decide, (get_deterministic_id_spec "sku-ABC").2.1 (by decide)⟩

/-- C7: on an existing profile, a purchase pulls `min` halfway toward
`price*0.7` and `max` halfway toward `price*1.5` and adds `0.2` to the
confidence (capped at 1); any other interaction type widens the range to
`min(min, price*0.5)` / `max(max, price*1.5)` and adds `0.05` (same cap);
in particular a purchase of price 100 on `{min:10, max:1000,
confidence:0.1}` yields `{min:40, max:575, confidence:0.3}`, moving `min`
from 10 toward 70, `max` from 1000 toward 150, and raising confidence. -/
theorem budget_update_rule (b : Budget) (price : ℚ) (t : String) (ht : t ≠ "purchase") :
    ((updateBudget "purchase" b price).min = b.min * (1/2) + price * (7/10) * (1/2) ∧
     (updateBudget "purchase" b price).max = b.max * (1/2) + price * (3/2) * (1/2) ∧
     (updateBudget "purchase" b price).confidence = min (b.confidence + 2/10) 1) ∧
    ((updateBudget t b price).min = min b.min (price * (1/2)) ∧
     (updateBudget t b price).max = max b.max (price * (3/2)) ∧
     (updateBudget t b price).confidence = min (b.confidence + 5/100) 1) ∧
    ((updateBudget "purchase" { min := 10, max := 1000, confidence := 1/10 } 100).min = 40 ∧
     (updateBudget "purchase" { min := 10, max := 1000, confidence := 1/10 } 100).max = 575 ∧
     (updateBudget "purchase"
        { min := 10, max := 1000, confidence := 1/10 } 100).confidence = 3/10) ∧
    ((10:ℚ) < 40 ∧ (40:ℚ) < 70) ∧ ((150:ℚ) < 575 ∧ (575:ℚ) < 1000) ∧ (1/10:ℚ) < 3/10 := by
  refine ⟨⟨?_, ?_, ?_⟩, ?_, ⟨?_, ?_, ?_⟩, by norm_num, by norm_num, by norm_num⟩
  · simp only [updateBudget, if_pos]
    ring
  · simp only [updateBudget, if_pos]
    ring
  · simp only [updateBudget, if_pos]
  · simp [updateBudget, ht]
  · norm_num [updateBudget]
  · norm_num [updateBudget]
  · norm_num [updateBudget]

/-- Witness for C7: the non-purchase branch at interaction type `"view"`
on the example budget. -/
theorem budget_update_rule_witness :
    ("view" : String) ≠ "purchase" ∧
    ((updateBudget "view" { min := 10, max := 1000, confidence := 1/10 } 100).min =
        min 10 ((100:ℚ) * (1/2)) ∧
     (updateBudget "view" { min := 10, max := 1000, confidence := 1/10 } 100).max =
        max 1000 ((100:ℚ) * (3/2)) ∧
     (updateBudget "view" { min := 10, max := 1000, confidence := 1/10 } 100).confidence =
        min ((1:ℚ)/10 + 5/100) 1) :=
  ⟨by decide, (budget_update_rule { min := 10, max := 1000, confidence := 1/10 } 100 "view"
    (by decide)).2.1⟩

/-- Helper: one budget update preserves `min ≤ max` for nonnegative prices. -/
theorem updateBudget_min_le_max (t : String) (b : Budget) (price : ℚ)
    (hp : 0 ≤ price) (h : b.min ≤ b.max) :
    (updateBudget t b price).min ≤ (updateBudget t b price).max := by
  unfold updateBudget
  split
  · simp only
    nlinarith
  · simp only
    calc min b.min (price * (1/2)) ≤ b.min := min_le_left _ _
      _ ≤ b.max := h
      _ ≤ max b.max (price * (3/2)) := le_max_left _ _

/-- Helper: folding budget updates over events with nonnegative prices
preserves `min ≤ max`. -/
theorem foldl_updateBudget_min_le_max :
    ∀ (events : List (String × ℚ)) (b : Budget), b.min ≤ b.max →
      (∀ e ∈ events, 0 ≤ e.2) →
      (events.foldl (fun b e => updateBudget e.1 b e.2) b).min ≤
        (events.foldl (fun b e => updateBudget e.1 b e.2) b).max
  | [], _, h, _ => h
  | e :: es, b, h, hev => by
      refine foldl_updateBudget_min_le_max es _ ?_ (fun x hx => hev x (List.mem_cons_of_mem _ hx))
      exact updateBudget_min_le_max e.1 b e.2 (hev e (List.mem_cons_self _ _)) h

/-- C8: for nonnegative item prices the invariant `budget.min ≤ budget.max`
is established at cold start (`price*0.7 ≤ price*1.3`), preserved by both
branches of every budget update, and therefore holds after any interaction
sequence applied to a cold-started profile. -/
theorem budget_min_le_max_invariant (p0 : ℚ) (events : List (String × ℚ))
    (h0 : 0 ≤ p0) (hev : ∀ e ∈ events, 0 ≤ e.2) :
    (coldBudget p0).min ≤ (coldBudget p0).max ∧
    (∀ (t : String) (b : Budget) (price : ℚ), 0 ≤ price → b.min ≤ b.max →
      (updateBudget t b price).min ≤ (updateBudget t b price).max) ∧
    (events.foldl (fun b e => updateBudget e.1 b e.2) (coldBudget p0)).min ≤
      (events.foldl (fun b e => updateBudget e.1 b e.2) (coldBudget p0)).max := by
  have hcold : (coldBudget p0).min ≤ (coldBudget p0).max := by
    simp only [coldBudget]
    nlinarith
  exact ⟨hcold, updateBudget_min_le_max,
    foldl_updateBudget_min_le_max events (coldBudget p0) hcold hev⟩

/-- Witness for C8: a concrete cold start at price 100 followed by a view
at price 50 and a purchase at price 20. -/
theorem budget_min_le_max_invariant_witness :
    (0:ℚ) ≤ 100 ∧ (∀ e ∈ [("view", (50:ℚ)), ("purchase", 20)], 0 ≤ e.2) ∧
    ([("view", (50:ℚ)), ("purchase", 20)].foldl
        (fun b e => updateBudget e.1 b e.2) (coldBudget 100)).min ≤
      ([("view", (50:ℚ)), ("purchase", 20)].foldl
        (fun b e => updateBudget e.1 b e.2) (coldBudget 100)).max :=
  ⟨by norm_num, by norm_num,
    (budget_min_le_max_invariant 100 [("view", 50), ("purchase", 20)]
      (by norm_num) (by norm_num)).2.2⟩

/-- C10: an interaction type outside `{view, wishlist, cart, purchase}` —
e.g. `click` or `search`, both legal event types — falls through both
weight tables' `.get(..., 0.1)` defaults: the profile updater blends with
weight 0.1 exactly as a view does, and the collaborative scorer also
assigns weight 0.1. -/
theorem unknown_type_default_weight (t : String)
    (h : t ≠ "view" ∧ t ≠ "wishlist" ∧ t ≠ "cart" ∧ t ≠ "purchase")
    (prof : UserProfile) (pid : String) (pvec : List ℚ) (price : ℚ) (cat : String) :
    interactionWeight t = 1/10 ∧
    interactionWeight t = interactionWeight "view" ∧
    (captureInteraction (some prof) t pid pvec price cat).vector =
      blendVector prof.vector pvec (1/10) ∧
    collabTypeWeight t = 1/10 := by
  obtain ⟨h1, h2, h3, h4⟩ := h
  have e1 : (t == "view") = false := beq_eq_false_iff_ne.mpr h1
  have e2 : (t == "wishlist") = false := beq_eq_false_iff_ne.mpr h2
  have e3 : (t == "cart") = false := beq_eq_false_iff_ne.mpr h3
  have e4 : (t == "purchase") = false := beq_eq_false_iff_ne.mpr h4
  have hw : interactionWeight t = 1/10 := by
    simp [interactionWeight, dictGetD, INTERACTION_WEIGHTS, List.lookup, e1, e2, e3, e4]
  refine ⟨hw, by rw [hw]; rfl, ?_, ?_⟩
  · show blendVector prof.vector pvec (interactionWeight t) = blendVector prof.vector pvec (1/10)
    rw [hw]
  · simp [collabTypeWeight, dictGetD, List.lookup, e1, e2, e3, e4]

/-- C1 counterexample: blending two unit vectors with the view weight 0.1
stores `[0.9, 0.1]`, whose squared norm `0.82` is far outside the `1e-6`
tolerance — `capture_interaction` persists the blend without normalizing. -/
theorem taste_vector_not_normalized :
    sumSq ([1, 0] : List ℚ) = 1 ∧ sumSq ([0, 1] : List ℚ) = 1 ∧
    (captureInteraction (some ⟨[1, 0], ⟨0, 0, 3/10⟩, [], []⟩) "view" "p1" [0, 1] 0 "c").vector =
      [9/10, 1/10] ∧
    ¬ UnitNormWithinTol [(9:ℚ)/10, 1/10] := by
  refine ⟨by norm_num [sumSq], by norm_num [sumSq], ?_, ?_⟩
  · show blendVector [1, 0] [0, 1] (interactionWeight "view") = [9/10, 1/10]
    norm_num [blendVector, interactionWeight, dictGetD, INTERACTION_WEIGHTS, List.lookup]
  · simp only [UnitNormWithinTol, sumSq]
    norm_num

/-- C1 amended: for every update of an existing profile the stored taste
vector is exactly the blend `old*(1-w) + item*w` with
`w = INTERACTION_WEIGHTS.get(type, 0.1)`, stored without normalization,
and unit norm is not preserved in general (not even for unit inputs). -/
theorem taste_vector_is_unnormalized_blend (prof : UserProfile) (t pid : String)
    (pvec : List ℚ) (price : ℚ) (cat : String) :
    (captureInteraction (some prof) t pid pvec price cat).vector =
      List.zipWith
        (fun ov pv => ov * (1 - dictGetD INTERACTION_WEIGHTS t (1/10)) +
          pv * dictGetD INTERACTION_WEIGHTS t (1/10)) prof.vector pvec ∧
    ¬ (∀ (prof' : UserProfile) (t' pid' : String) (pvec' : List ℚ) (price' : ℚ) (cat' : String),
        sumSq prof'.vector = 1 → sumSq pvec' = 1 →
        UnitNormWithinTol (captureInteraction (some prof') t' pid' pvec' price' cat').vector) := by
  refine ⟨rfl, fun hall => ?_⟩
  have h := hall ⟨[1, 0], ⟨0, 0, 3/10⟩, [], []⟩ "view" "p1" [0, 1] 0 "c"
    (by norm_num [sumSq]) (by norm_num [sumSq])
  have hv : (captureInteraction (some ⟨[1, 0], ⟨0, 0, 3/10⟩, [], []⟩)
      "view" "p1" [0, 1] 0 "c").vector = [9/10, 1/10] := by
    show blendVector [1, 0] [0, 1] (interactionWeight "view") = [9/10, 1/10]
    norm_num [blendVector, interactionWeight, dictGetD, INTERACTION_WEIGHTS, List.lookup]
  rw [hv] at h
  simp only [UnitNormWithinTol, sumSq] at h
  norm_num at h

/-- C2 counterexample: two equally weighted orthogonal unit seeds produce
the query vector `[0.5, 0.5]` of squared norm `0.5` — the weighted mean is
returned without L2 normalization, far outside the `1e-6` tolerance. -/
theorem query_vector_not_normalized :
    collectWeighted envTwoSeeds ["a", "b"] [] [] none = [([1, 0], 1), ([0, 1], 1)] ∧
    avgVector (collectWeighted envTwoSeeds ["a", "b"] [] [] none) = [1/2, 1/2] ∧
    ¬ UnitNormWithinTol [(1:ℚ)/2, 1/2] := by
  have hw : collectWeighted envTwoSeeds ["a", "b"] [] [] none = [([1, 0], 1), ([0, 1], 1)] := by
    simp [collectWeighted, envTwoSeeds, retrievedVec, seedWeight, queryActive]
  refine ⟨hw, ?_, ?_⟩
  · rw [hw]
    norm_num [avgVector, weightedSum, vecScale, vecAdd]
  · simp only [UnitNormWithinTol, sumSq]
    norm_num

/-- C2 amended: the total seed weight is always positive (each weight is
2, 1.5 or 1), so the query vector returned for a nonempty weighted seed
set is exactly the weighted mean `Σ wᵢvᵢ / Σ wᵢ` — with no normalization
step. -/
theorem query_vector_weighted_mean (env : SeedEnv) (rawIds cartIds wishlistIds : List String)
    (q : Option String) (h : collectWeighted env rawIds cartIds wishlistIds q ≠ []) :
    0 < ((collectWeighted env rawIds cartIds wishlistIds q).map (fun p => p.2)).sum ∧
    avgVector (collectWeighted env rawIds cartIds wishlistIds q) =
      vecScale (1 / ((collectWeighted env rawIds cartIds wishlistIds q).map (fun p => p.2)).sum)
        (weightedSum (collectWeighted env rawIds cartIds wishlistIds q)) ∧
    ∀ p ∈ collectWeighted env rawIds cartIds wishlistIds q, p.2 = 2 ∨ p.2 = 3/2 ∨ p.2 = 1 := by
  have hmem : ∀ p ∈ collectWeighted env rawIds cartIds wishlistIds q,
      p.2 = 2 ∨ p.2 = 3/2 ∨ p.2 = 1 := by
    have hseed : ∀ p ∈ (rawIds.take 50).filterMap
        (fun pid => (retrievedVec env pid).map
          (fun v => (v, seedWeight cartIds wishlistIds pid))),
        p.2 = 2 ∨ p.2 = 3/2 ∨ (p.2 : ℚ) = 1 := by
      intro p hp
      obtain ⟨pid, _, hpid⟩ := List.mem_filterMap.mp hp
      obtain ⟨v, _, hv⟩ := Option.map_eq_some'.mp hpid
      have : p.2 = seedWeight cartIds wishlistIds pid := by rw [← hv]
      rw [this]
      unfold seedWeight
      split
      · exact Or.inl rfl
      · split
        · exact Or.inr (Or.inl rfl)
        · exact Or.inr (Or.inr rfl)
    intro p hp
    unfold collectWeighted at hp
    by_cases hq : queryActive q = true
    · rw [if_pos hq] at hp
      rcases q with _ | s
      · exact hseed p hp
      · rcases he : env.embed s.trim with _ | qv
        · simp only [he] at hp
          exact hseed p hp
        · simp only [he] at hp
          rcases List.mem_append.mp hp with hl | hr
          · exact hseed p hl
          · rw [List.mem_singleton.mp hr]
            exact Or.inr (Or.inl rfl)
    · rw [if_neg hq] at hp
      exact hseed p hp
  have hpos : 0 < ((collectWeighted env rawIds cartIds wishlistIds q).map (fun p => p.2)).sum := by
    refine List.sum_pos _ (fun w hw' => ?_) (fun hc => h (List.map_eq_nil_iff.mp hc))
    obtain ⟨p, hp, hpw⟩ := List.mem_map.mp hw'
    rcases hmem p hp with h1 | h1 | h1 <;> rw [← hpw, h1] <;> norm_num
  refine ⟨hpos, ?_, hmem⟩
  unfold avgVector
  rw [if_pos hpos]

/-- Witness for the C2 amended theorem at the concrete two-seed input. -/
theorem query_vector_weighted_mean_witness :
    collectWeighted envTwoSeeds ["a", "b"] [] [] none ≠ [] ∧
    0 < ((collectWeighted envTwoSeeds ["a", "b"] [] [] none).map (fun p => p.2)).sum ∧
    avgVector (collectWeighted envTwoSeeds ["a", "b"] [] [] none) =
      vecScale
        (1 / ((collectWeighted envTwoSeeds ["a", "b"] [] [] none).map (fun p => p.2)).sum)
        (weightedSum (collectWeighted envTwoSeeds ["a", "b"] [] [] none)) := by
  have h : collectWeighted envTwoSeeds ["a", "b"] [] [] none ≠ [] := by
    simp [collectWeighted, envTwoSeeds, retrievedVec, seedWeight, queryActive]
  exact ⟨h, (query_vector_weighted_mean envTwoSeeds ["a", "b"] [] [] none h).1,
    (query_vector_weighted_mean envTwoSeeds ["a", "b"] [] [] none h).2.1⟩

/-- C9 counterexample: with no seed ids and no query text the by-seed
implementation returns `Except.ok []` — an ordinary empty result — and
does not fail with `EmptySeedError`; no such exception exists anywhere in
the source. -/
theorem empty_seed_no_error_counterexample :
    recommendations_by_seed_impl emptyEnv [] none 12 [] [] = Except.ok [] ∧
    recommendations_by_seed_impl emptyEnv [] none 12 [] [] ≠
      Except.error SeedFailure.emptySeed :=
  ⟨rfl, fun hc => Except.noConfusion hc⟩

/-- C9 amended: when both the seed list and the query text are empty or
absent — and likewise whenever no seed vector resolves — the by-seed
implementation returns the empty result list directly and never raises,
so the caller-visible outcome is an empty result set, not a crash. -/
theorem by_seed_empty_returns_empty (env : SeedEnv) (q : Option String) (limit : Nat)
    (cartIds wishlistIds : List String) (hq : queryActive q = false) :
    recommendations_by_seed_impl env [] q limit cartIds wishlistIds = Except.ok [] ∧
    (∀ f, recommendations_by_seed_impl env [] q limit cartIds wishlistIds ≠ Except.error f) ∧
    (∀ rawIds : List String, (∀ pid ∈ rawIds, env.retrieve pid = none) →
      recommendations_by_seed_impl env rawIds q limit cartIds wishlistIds = Except.ok []) := by
  have h1 : recommendations_by_seed_impl env [] q limit cartIds wishlistIds = Except.ok [] := by
    simp [recommendations_by_seed_impl, hq]
  refine ⟨h1, fun f hc => by rw [h1] at hc; exact Except.noConfusion hc, ?_⟩
  intro rawIds hret
  have hcw : collectWeighted env rawIds cartIds wishlistIds q = [] := by
    have hfs : (rawIds.take 50).filterMap
        (fun pid => (retrievedVec env pid).map
          (fun v => (v, seedWeight cartIds wishlistIds pid))) = [] := by
      rw [List.filterMap_eq_nil_iff]
      intro pid hpid
      have hr : env.retrieve pid = none := hret pid (List.take_subset _ _ hpid)
      simp [retrievedVec, hr]
    unfold collectWeighted
    simp [hq, hfs]
  unfold recommendations_by_seed_impl
  by_cases hr : rawIds.isEmpty && !queryActive q
  · rw [if_pos hr]
  · rw [if_neg hr]
    simp [hcw]

/-- Witness for the C9 amended theorem at the concrete empty input. -/
theorem by_seed_empty_returns_empty_witness :
    queryActive none = false ∧
    recommendations_by_seed_impl emptyEnv [] none 12 [] [] = Except.ok [] :=
  ⟨rfl, (by_seed_empty_returns_empty emptyEnv none 12 [] [] rfl).1⟩

/-- Helper: `headD` is `getD 0`. -/
theorem headD_eq_getD {α} (l : List α) (d : α) : l.headD d = l.getD 0 d := by
  cases l <;> rfl

/-- Helper: a `drop` producing a cons pins down the element at that index
and the following drop. -/
theorem drop_eq_cons_spec {α} (d : α) :
    ∀ (l : List α) (i : Nat) (x : α) (xs : List α), l.drop i = x :: xs →
      i < l.length ∧ l.getD i d = x ∧ l.drop (i+1) = xs := by
  intro l i x xs h
  have hi : i < l.length := by
    by_contra hle
    rw [List.drop_eq_nil_of_le (Nat.le_of_not_lt hle)] at h
    exact List.noConfusion h
  have hge := List.getElem_cons_drop l i hi
  rw [h] at hge
  injection hge with h1 h2
  exact ⟨hi, by rw [List.getD_eq_getElem l d hi, h1], h2⟩

/-- Helper: the diverse scan only ever reports a valid index of an item
whose brand differs from the forbidden one, carrying that item's score. -/
theorem scanDiverse_some {lb : Option String} {l : List Item} :
    ∀ (xs : List Item) (i : Nat) (acc : Option (Nat × ℚ)),
      xs = l.drop i →
      (acc = none ∨ ∃ j, acc = some (j, (l.getD j default).score) ∧ j < l.length ∧
        some (normBrand (l.getD j default)) ≠ lb) →
      (scanDiverse lb xs i acc = none ∨
        ∃ j, scanDiverse lb xs i acc = some (j, (l.getD j default).score) ∧ j < l.length ∧
          some (normBrand (l.getD j default)) ≠ lb)
  | [], i, acc, _, hacc => by simpa [scanDiverse] using hacc
  | x :: xs, i, acc, hxs, hacc => by
      obtain ⟨hi, hx, hxs'⟩ := drop_eq_cons_spec default l i x xs hxs.symm
      simp only [scanDiverse]
      apply scanDiverse_some xs (i+1) _ hxs'.symm
      by_cases hb : some (normBrand x) ≠ lb
      · rw [if_pos hb]
        cases acc with
        | none =>
            exact Or.inr ⟨i, by rw [hx], hi, by rw [hx]; exact hb⟩
        | some bb =>
            rcases bb with ⟨bi, bs⟩
            dsimp only
            by_cases hlt : bs < x.score
            · rw [if_pos hlt]
              exact Or.inr ⟨i, by rw [hx], hi, by rw [hx]; exact hb⟩
            · rw [if_neg hlt]
              exact hacc
      · rw [if_neg hb]
        exact hacc

/-- Helper: the diverse scan reports `none` exactly when the accumulator
was empty and every scanned item carries the forbidden brand. -/
theorem scanDiverse_none {lb : Option String} :
    ∀ (xs : List Item) (i : Nat) (acc : Option (Nat × ℚ)),
      scanDiverse lb xs i acc = none →
      acc = none ∧ ∀ x ∈ xs, some (normBrand x) = lb
  | [], _, acc, h => ⟨by simpa [scanDiverse] using h, by simp⟩
  | x :: xs, i, acc, h => by
      simp only [scanDiverse] at h
      have IH := scanDiverse_none xs (i+1) _ h
      by_cases hb : some (normBrand x) ≠ lb
      · exfalso
        rw [if_pos hb] at IH
        rcases IH with ⟨hnone, _⟩
        cases acc with
        | none => exact Option.noConfusion hnone
        | some bb =>
            rcases bb with ⟨bi, bs⟩
            dsimp only at hnone
            by_cases hlt : bs < x.score
            · rw [if_pos hlt] at hnone
              exact Option.noConfusion hnone
            · rw [if_neg hlt] at hnone
              exact Option.noConfusion hnone
      · rw [if_neg hb] at IH
        refine ⟨IH.1, fun y hy => ?_⟩
        rcases List.mem_cons.mp hy with h1 | h2
        · rw [h1]
          exact not_ne_iff.mp hb
        · exact IH.2 y h2

/-- Helper: the fallback scan returns a valid index whose item's score
bounds the starting score and every scanned item's score. -/
theorem scanMax_spec {l : List Item} :
    ∀ (xs : List Item) (i bi : Nat) (bs : ℚ),
      xs = l.drop i → bi < l.length → (l.getD bi default).score = bs →
      (scanMax xs i bi bs).1 < l.length ∧
      (l.getD (scanMax xs i bi bs).1 default).score = (scanMax xs i bi bs).2 ∧
      bs ≤ (scanMax xs i bi bs).2 ∧
      ∀ x ∈ xs, x.score ≤ (scanMax xs i bi bs).2
  | [], i, bi, bs, _, hbi, hscore => by
      rw [scanMax]
      exact ⟨hbi, hscore, le_refl _, fun x hx => absurd hx (List.not_mem_nil x)⟩
  | x :: xs, i, bi, bs, hxs, hbi, hscore => by
      obtain ⟨hi, hx, hxs'⟩ := drop_eq_cons_spec default l i x xs hxs.symm
      rw [scanMax]
      by_cases hlt : bs < x.score
      · rw [if_pos hlt]
        have IH := scanMax_spec xs (i+1) i x.score hxs'.symm hi (by rw [hx])
        refine ⟨IH.1, IH.2.1, le_trans (le_of_lt hlt) IH.2.2.1, fun y hy => ?_⟩
        rcases List.mem_cons.mp hy with h1 | h2
        · rw [h1]
          exact IH.2.2.1
        · exact IH.2.2.2 y h2
      · rw [if_neg hlt]
        have IH := scanMax_spec xs (i+1) bi bs hxs'.symm hbi hscore
        refine ⟨IH.1, IH.2.1, IH.2.2.1, fun y hy => ?_⟩
        rcases List.mem_cons.mp hy with h1 | h2
        · rw [h1]
          exact le_trans (le_of_not_lt hlt) IH.2.2.1
        · exact IH.2.2.2 y h2

/-- Helper: the chosen index is in range, and whenever the chosen item
repeats the forbidden brand, the whole pool carries that brand and the
chosen item has maximal score (the fallback case of the source loop). -/
theorem chooseIdx_spec (lb : Option String) (l : List Item) (hne : l ≠ []) :
    chooseIdx lb l < l.length ∧
    (some (normBrand (l.getD (chooseIdx lb l) default)) = lb →
      (∀ x ∈ l, some (normBrand x) = lb) ∧
      ∀ x ∈ l, x.score ≤ (l.getD (chooseIdx lb l) default).score) := by
  unfold chooseIdx
  rcases hsd : scanDiverse lb l 0 none with _ | ⟨j, s⟩
  · have hall := (scanDiverse_none l 0 none hsd).2
    have hlen : 0 < l.length := List.length_pos.mpr hne
    have hsm := scanMax_spec l 0 0 (l.headD default).score rfl hlen (by rw [headD_eq_getD])
    refine ⟨hsm.1, fun _ => ⟨hall, fun x hx => ?_⟩⟩
    rw [hsm.2.1]
    exact hsm.2.2.2 x hx
  · have hinv := @scanDiverse_some lb l l 0 none rfl (Or.inl rfl)
    rw [hsd] at hinv
    rcases hinv with h1 | ⟨j', hj'some, hj'lt, hj'brand⟩
    · exact Option.noConfusion h1
    · injection hj'some with hpair
      injection hpair with hj hs
      subst hj
      exact ⟨hj'lt, fun hbrand => absurd hbrand hj'brand⟩

/-- Helper: removing the element at a valid index and re-consing it is a
permutation of the original list. -/
theorem getD_cons_eraseIdx_perm {α} (d : α) :
    ∀ (l : List α) (i : Nat), i < l.length → (l.getD i d :: l.eraseIdx i).Perm l
  | _ :: _, 0, _ => List.Perm.refl _
  | x :: xs, i+1, h => by
      have hi : i < xs.length := Nat.lt_of_succ_lt_succ (by simpa using h)
      have IH := getD_cons_eraseIdx_perm d xs i hi
      exact List.Perm.trans (List.Perm.swap x (xs.getD i d) (xs.eraseIdx i)) (IH.cons x)

/-- Helper: the loop's output is a permutation of the remaining pool. -/
theorem rerankLoop_perm :
    ∀ (n : Nat) (lb : Option String) (l : List Item), l.length ≤ n →
      (rerankLoop n lb l).Perm l
  | 0, _, l, h => by
      have hl : l = [] := List.length_eq_zero.mp (Nat.le_zero.mp h)
      subst hl
      simp [rerankLoop]
  | n+1, lb, l, h => by
      by_cases hl : l = []
      · subst hl
        simp [rerankLoop]
      · rw [rerankLoop, if_neg hl]
        have hlt := (chooseIdx_spec lb l hl).1
        have hlen : (l.eraseIdx (chooseIdx lb l)).length ≤ n := by
          rw [List.length_eraseIdx, if_pos hlt]
          omega
        have IH := rerankLoop_perm n (some (normBrand (l.getD (chooseIdx lb l) default)))
          (l.eraseIdx (chooseIdx lb l)) hlen
        exact (IH.cons _).trans (getD_cons_eraseIdx_perm default l _ hlt)

/-- C5: `rerank_by_brand_diversity` returns a permutation of its input —
same length and same multiset of items, nothing added or dropped. -/
theorem rerank_by_brand_diversity_permutation (items : List Item) :
    (rerank_by_brand_diversity items).Perm items := by
  unfold rerank_by_brand_diversity
  by_cases h : items.length ≤ 1
  · rw [if_pos h]
  · rw [if_neg h]
    exact rerankLoop_perm items.length none items le_rfl

/-- Helper: the loop satisfies the brand-adjacency specification over the
multiset of the remaining pool. -/
theorem rerankLoop_adjacentOK :
    ∀ (n : Nat) (lb : Option String) (l : List Item), l.length ≤ n →
      AdjacentOK lb (↑l) (rerankLoop n lb l)
  | 0, lb, l, h => by
      have hl : l = [] := List.length_eq_zero.mp (Nat.le_zero.mp h)
      subst hl
      simp [rerankLoop, AdjacentOK]
  | n+1, lb, l, h => by
      by_cases hl : l = []
      · subst hl
        simp [rerankLoop, AdjacentOK]
      · rw [rerankLoop, if_neg hl]
        have hspec := chooseIdx_spec lb l hl
        rw [AdjacentOK]
        refine ⟨fun hbrand => ?_, ?_⟩
        · obtain ⟨hall, hmax⟩ := hspec.2 hbrand
          exact ⟨fun x hx => hall x (by simpa using hx), fun x hx => hmax x (by simpa using hx)⟩
        · have hlt := hspec.1
          have heq : (↑l : Multiset Item).erase (l.getD (chooseIdx lb l) default) =
              ↑(l.eraseIdx (chooseIdx lb l)) := by
            have hco : (↑l : Multiset Item) =
                (l.getD (chooseIdx lb l) default) ::ₘ ↑(l.eraseIdx (chooseIdx lb l)) := by
              rw [Multiset.cons_coe]
              exact (Multiset.coe_eq_coe.mpr (getD_cons_eraseIdx_perm default l _ hlt)).symm
            rw [hco, Multiset.erase_cons_head]
          rw [heq]
          have hlen : (l.eraseIdx (chooseIdx lb l)).length ≤ n := by
            rw [List.length_eraseIdx, if_pos hlt]
            omega
          exact rerankLoop_adjacentOK n _ _ hlen

/-- C4: in the reranked output, two consecutive items share a normalized
brand only when every still-unplaced item carried that brand, and in that
fallback case the highest-scoring remaining item is the one placed. -/
theorem rerank_by_brand_diversity_adjacency (items : List Item) :
    AdjacentOK none (↑items) (rerank_by_brand_diversity items) := by
  unfold rerank_by_brand_diversity
  by_cases h : items.length ≤ 1
  · rw [if_pos h]
    match items, h with
    | [], _ => exact trivial
    | [x], _ =>
        rw [AdjacentOK]
        exact ⟨fun hx => Option.noConfusion hx, trivial⟩
  · rw [if_neg h]
    exact rerankLoop_adjacentOK items.length none items le_rfl

/-- Witness for C10 at the event type `"click"`. -/
theorem unknown_type_default_weight_witness :
    (("click" : String) ≠ "view" ∧ ("click" : String) ≠ "wishlist" ∧
      ("click" : String) ≠ "cart" ∧ ("click" : String) ≠ "purchase") ∧
    interactionWeight "click" = 1/10 ∧
    interactionWeight "click" = interactionWeight "view" ∧
    (captureInteraction (some ⟨[1, 0], ⟨0, 0, 0⟩, [], []⟩) "click" "p" [0, 1] 5 "c").vector =
      blendVector [1, 0] [0, 1] (1/10) ∧
    collabTypeWeight "click" = 1/10 :=
  ⟨by decide, unknown_type_default_weight "click" (by decide) ⟨[1, 0], ⟨0, 0, 0⟩, [], []⟩
    "p" [0, 1] 5 "c"⟩

/-! ## Hybrid combine lemmas (C3) -/

/-- Helper: `hasId` detects membership of a key. -/
theorem hasId_eq_true_iff (m : List CombinedRec) (i : String) :
    hasId m i = true ↔ ∃ e ∈ m, e.id = i := by
  simp [hasId, List.any_eq_true]

/-- Helper: `hasId` is false exactly when no entry carries the key. -/
theorem hasId_eq_false_iff (m : List CombinedRec) (i : String) :
    hasId m i = false ↔ ∀ e ∈ m, e.id ≠ i := by
  rw [← Bool.not_eq_true, hasId_eq_true_iff]
  push_neg
  rfl

/-- Helper: `hasId` distributes over append. -/
theorem hasId_append (m m' : List CombinedRec) (i : String) :
    hasId (m ++ m') i = (hasId m i || hasId m' i) :=
  List.any_append

/-- Helper: a boost keeps the entry's id. -/
theorem boostCollab_id (e : CombinedRec) (c : CollabRec) : (boostCollab e c).id = e.id := rfl

/-- Helper: the aggregate collaborative effect keeps the entry's id. -/
theorem augBy_id (collab : List CollabRec) (viewed : List String) (e : CombinedRec) :
    (augBy collab viewed e).id = e.id := by
  unfold augBy
  cases collabFor collab viewed e.id <;> rfl

/-- Helper: mapping an id-preserving function does not change `hasId`. -/
theorem hasId_map_of_id_eq (f : CombinedRec → CombinedRec) (hf : ∀ e, (f e).id = e.id)
    (m : List CombinedRec) (i : String) : hasId (m.map f) i = hasId m i := by
  unfold hasId
  rw [List.any_map]
  congr 1
  funext e
  show ((f e).id == i) = (e.id == i)
  rw [hf]

/-- Helper: mapping an id-preserving function keeps the key list. -/
theorem ids_map_of_id_eq (f : CombinedRec → CombinedRec) (hf : ∀ e, (f e).id = e.id)
    (m : List CombinedRec) :
    (m.map f).map (fun e => e.id) = m.map (fun e => e.id) := by
  rw [List.map_map]
  congr 1
  funext e
  exact hf e

/-- Helper: no matching id means no collaborative candidate is found. -/
theorem collabFor_eq_none (collab : List CollabRec) (viewed : List String) (i : String)
    (h : ∀ c ∈ collab, c.id ≠ i) : collabFor collab viewed i = none := by
  rw [collabFor, List.find?_eq_none]
  intro c hc
  simp [h c hc]

/-- Helper: `find?` returns the unique element satisfying the predicate. -/
theorem find?_eq_some_of_unique {α} {p : α → Bool} :
    ∀ {l : List α} {a : α}, a ∈ l → p a = true → (∀ b ∈ l, p b = true → b = a) →
      l.find? p = some a := by
  intro l
  induction l with
  | nil => exact fun ha _ _ => absurd ha (List.not_mem_nil _)
  | cons x xs ih =>
      intro a ha hpa huniq
      by_cases hpx : p x = true
      · rw [List.find?_cons_of_pos _ hpx, huniq x (List.mem_cons_self x xs) hpx]
      · rw [List.find?_cons_of_neg _ hpx]
        have hax : a ≠ x := fun he => hpx (he ▸ hpa)
        have ha' : a ∈ xs := by
          rcases List.mem_cons.mp ha with h1 | h2
          · exact absurd h1 hax
          · exact h2
        exact ih ha' hpa (fun b hb hpb => huniq b (List.mem_cons_of_mem x hb) hpb)

/-- Helper: with nodup personal ids none of which is already keyed, the
personal loop appends exactly the non-viewed candidates in order. -/
theorem personal_foldl_eq (viewed : List String) :
    ∀ (personal : List PersonalRec) (m0 : List CombinedRec),
      (∀ r ∈ personal, hasId m0 r.id = false) →
      (personal.map (fun r => r.id)).Nodup →
      personal.foldl (personalStep viewed) m0 =
        m0 ++ (personal.filter (fun r => !(decide (r.id ∈ viewed)))).map mkPersonal
  | [], m0, _, _ => by simp
  | r :: rest, m0, hdis, hnd => by
      rw [List.foldl_cons]
      have hnd0 : r.id ∉ List.map (fun r => r.id) rest ∧
          (List.map (fun r => r.id) rest).Nodup := by
        rw [List.map_cons, List.nodup_cons] at hnd
        exact hnd
      by_cases hv : r.id ∈ viewed
      · have hstep : personalStep viewed m0 r = m0 := by simp [personalStep, hv]
        rw [hstep, personal_foldl_eq viewed rest m0
          (fun r' hr' => hdis r' (List.mem_cons_of_mem _ hr')) hnd0.2]
        rw [List.filter_cons_of_neg (by simp [hv])]
      · have hm0r : hasId m0 r.id = false := hdis r (List.mem_cons_self _ _)
        have hstep : personalStep viewed m0 r = m0 ++ [mkPersonal r] := by
          simp [personalStep, hv, hm0r]
        have hdis' : ∀ r' ∈ rest, hasId (m0 ++ [mkPersonal r]) r'.id = false := by
          intro r' hr'
          have h2 : r'.id ≠ r.id := by
            intro he
            exact hnd0.1 (he ▸ List.mem_map_of_mem _ hr')
          rw [hasId_append, hdis r' (List.mem_cons_of_mem _ hr')]
          simp [hasId, mkPersonal, Ne.symm h2]
        rw [hstep, personal_foldl_eq viewed rest (m0 ++ [mkPersonal r]) hdis' hnd0.2]
        rw [List.filter_cons_of_pos (by simp [hv]), List.map_cons]
        simp [List.append_assoc]

/-- Helper: with nodup collaborative ids and nodup map keys, the
collaborative loop boosts each touched entry once and appends the fresh
non-viewed candidates in order. -/
theorem collab_foldl_eq (viewed : List String) :
    ∀ (collab : List CollabRec) (m : List CombinedRec),
      (collab.map (fun c => c.id)).Nodup →
      (m.map (fun e => e.id)).Nodup →
      collab.foldl (collabStep viewed) m =
        m.map (augBy collab viewed) ++ newCollabEntries collab viewed m
  | [], m, _, _ => by
      have : ∀ e ∈ m, augBy [] viewed e = e := fun e _ => rfl
      simp [newCollabEntries, List.map_congr_left this]
  | c :: rest, m, hndc, hndm => by
      rw [List.foldl_cons]
      have hndc0 : c.id ∉ List.map (fun c => c.id) rest ∧
          (List.map (fun c => c.id) rest).Nodup := by
        rw [List.map_cons, List.nodup_cons] at hndc
        exact hndc
      have hrest_ne : ∀ c' ∈ rest, c'.id ≠ c.id := by
        intro c' hc' he
        exact hndc0.1 (he ▸ List.mem_map_of_mem _ hc')
      by_cases hv : c.id ∈ viewed
      · have hstep : collabStep viewed m c = m := by simp [collabStep, hv]
        rw [hstep, collab_foldl_eq viewed rest m hndc0.2 hndm]
        have haug : ∀ e ∈ m, augBy (c :: rest) viewed e = augBy rest viewed e := by
          intro e _
          unfold augBy collabFor
          rw [List.find?_cons_of_neg _ (by simp [hv])]
        rw [List.map_congr_left haug, newCollabEntries, newCollabEntries,
          List.filter_cons_of_neg (by simp [hv])]
      · by_cases hpre : hasId m c.id = true
        · have hstep : collabStep viewed m c =
              m.map (fun e => if e.id = c.id then boostCollab e c else e) := by
            simp [collabStep, hv, hpre]
          have hid : ∀ e, ((fun e => if e.id = c.id then boostCollab e c else e) e).id = e.id := by
            intro e
            by_cases h : e.id = c.id
            · simp [h, boostCollab_id]
            · simp [h]
          have hndm' : ((m.map (fun e => if e.id = c.id then boostCollab e c else e)).map
              (fun e => e.id)).Nodup := by
            rw [ids_map_of_id_eq _ hid]
            exact hndm
          rw [hstep, collab_foldl_eq viewed rest _ hndc0.2 hndm']
          have hmm : (m.map (fun e => if e.id = c.id then boostCollab e c else e)).map
              (augBy rest viewed) = m.map (augBy (c :: rest) viewed) := by
            rw [List.map_map]
            apply List.map_congr_left
            intro e _
            show augBy rest viewed (if e.id = c.id then boostCollab e c else e) =
              augBy (c :: rest) viewed e
            by_cases hec : e.id = c.id
            · rw [if_pos hec]
              have hrnone : collabFor rest viewed (boostCollab e c).id = none :=
                collabFor_eq_none rest viewed _
                  (fun c' hc' => by rw [boostCollab_id, hec]; exact hrest_ne c' hc')
              have hcfind : collabFor (c :: rest) viewed e.id = some c := by
                unfold collabFor
                rw [List.find?_cons_of_pos _ (by simp [hec, hv])]
              unfold augBy
              rw [hrnone, hcfind]
            · rw [if_neg hec]
              have : collabFor (c :: rest) viewed e.id = collabFor rest viewed e.id := by
                unfold collabFor
                rw [List.find?_cons_of_neg _ (by simp [Ne.symm hec])]
              unfold augBy
              rw [this]
          have hnew : newCollabEntries rest viewed
              (m.map (fun e => if e.id = c.id then boostCollab e c else e)) =
              newCollabEntries (c :: rest) viewed m := by
            unfold newCollabEntries
            congr 1
            rw [List.filter_cons_of_neg (by simp [hpre])]
            apply List.filter_congr
            intro c' hc'
            rw [hasId_map_of_id_eq _ hid]
          rw [hmm, hnew]
        · have hpre' : hasId m c.id = false := Bool.eq_false_iff.mpr hpre
          have hstep : collabStep viewed m c = m ++ [mkCollab c] := by
            simp [collabStep, hv, hpre']
          have hfresh : ∀ e ∈ m, e.id ≠ c.id := (hasId_eq_false_iff m c.id).mp hpre'
          have hndm' : ((m ++ [mkCollab c]).map (fun e => e.id)).Nodup := by
            rw [List.map_append]
            rw [List.nodup_append]
            refine ⟨hndm, List.nodup_singleton _, ?_⟩
            intro x hx hx'
            obtain ⟨e, he, hei⟩ := List.mem_map.mp hx
            have : x = c.id := by simpa [mkCollab] using hx'
            exact hfresh e he (hei.trans this)
          rw [hstep, collab_foldl_eq viewed rest _ hndc0.2 hndm']
          have haug1 : ∀ e ∈ m, augBy (c :: rest) viewed e = augBy rest viewed e := by
            intro e he
            unfold augBy collabFor
            rw [List.find?_cons_of_neg _ (by simp [Ne.symm (hfresh e he)])]
          have haug2 : augBy rest viewed (mkCollab c) = mkCollab c := by
            unfold augBy
            rw [collabFor_eq_none rest viewed (mkCollab c).id
              (fun c' hc' => hrest_ne c' hc')]
          have hnew : newCollabEntries rest viewed (m ++ [mkCollab c]) =
              (rest.filter (fun c' => !(decide (c'.id ∈ viewed)) && !(hasId m c'.id))).map
                mkCollab := by
            unfold newCollabEntries
            congr 1
            apply List.filter_congr
            intro c' hc'
            rw [hasId_append]
            have : hasId [mkCollab c] c'.id = false := by
              simp [hasId, mkCollab, Ne.symm (hrest_ne c' hc')]
            rw [this, Bool.or_false]
          have hnewc : newCollabEntries (c :: rest) viewed m =
              mkCollab c :: (rest.filter
                (fun c' => !(decide (c'.id ∈ viewed)) && !(hasId m c'.id))).map mkCollab := by
            unfold newCollabEntries
            rw [List.filter_cons_of_pos (by simp [hv, hpre']), List.map_cons]
          rw [List.map_append, List.map_congr_left haug1, hnew, hnewc]
          simp [haug2, List.append_assoc]

/-- C3: with distinct ids within each candidate list (as retrieval
guarantees), the hybrid combine returns one entry per candidate id not in
the user's interaction history; an id only in the personal list scores
`personal_score * 0.40`, one only in the collaborative list scores
`collaborative_score * 0.60`, one in both sums the two contributions; and
the output is sorted by `final_score` descending. -/
theorem combine_recommendations_correct (personal : List PersonalRec)
    (collab : List CollabRec) (viewed : List String)
    (hp : (personal.map (fun r => r.id)).Nodup)
    (hc : (collab.map (fun c => c.id)).Nodup) :
    ((combine_recommendations personal collab viewed).map (fun e => e.id)).Nodup ∧
    (∀ i : String, (∃ e ∈ combine_recommendations personal collab viewed, e.id = i) ↔
      (((∃ r ∈ personal, r.id = i) ∨ ∃ c ∈ collab, c.id = i) ∧ i ∉ viewed)) ∧
    (∀ e ∈ combine_recommendations personal collab viewed, ∀ r ∈ personal, r.id = e.id →
      (∀ c ∈ collab, c.id ≠ e.id) → e.final_score = r.personal_score * WEIGHT_PERSONAL) ∧
    (∀ e ∈ combine_recommendations personal collab viewed, ∀ c ∈ collab, c.id = e.id →
      (∀ r ∈ personal, r.id ≠ e.id) →
      e.final_score = c.collaborative_score * WEIGHT_COLLABORATIVE) ∧
    (∀ e ∈ combine_recommendations personal collab viewed, ∀ r ∈ personal, ∀ c ∈ collab,
      r.id = e.id → c.id = e.id →
      e.final_score = r.personal_score * WEIGHT_PERSONAL +
        c.collaborative_score * WEIGHT_COLLABORATIVE) ∧
    List.Pairwise (fun a b => b.final_score ≤ a.final_score)
      (combine_recommendations personal collab viewed) := by
  have hm1 : personal.foldl (personalStep viewed) [] =
      (personal.filter (fun r => !(decide (r.id ∈ viewed)))).map mkPersonal :=
    personal_foldl_eq viewed personal [] (fun r _ => rfl) hp
  have hm1ids : (((personal.filter (fun r => !(decide (r.id ∈ viewed)))).map mkPersonal).map
      (fun e => e.id)).Nodup := by
    have hcomp : ((personal.filter (fun r => !(decide (r.id ∈ viewed)))).map mkPersonal).map
        (fun e => e.id) =
        (personal.filter (fun r => !(decide (r.id ∈ viewed)))).map (fun r => r.id) := by
      rw [List.map_map]
      rfl
    rw [hcomp]
    exact hp.sublist (List.Sublist.map _ (List.filter_sublist _))
  have key : combine_recommendations personal collab viewed =
      List.insertionSort finalDescRel
        (((personal.filter (fun r => !(decide (r.id ∈ viewed)))).map mkPersonal).map
            (augBy collab viewed) ++
          newCollabEntries collab viewed
            ((personal.filter (fun r => !(decide (r.id ∈ viewed)))).map mkPersonal)) := by
    unfold combine_recommendations sortByFinalScoreDesc
    rw [hm1, collab_foldl_eq viewed collab _ hc hm1ids]
  have hperm : (combine_recommendations personal collab viewed).Perm
      (((personal.filter (fun r => !(decide (r.id ∈ viewed)))).map mkPersonal).map
          (augBy collab viewed) ++
        newCollabEntries collab viewed
          ((personal.filter (fun r => !(decide (r.id ∈ viewed)))).map mkPersonal)) := by
    rw [key]
    exact List.perm_insertionSort _ _
  have hm1has : ∀ i : String,
      hasId ((personal.filter (fun r => !(decide (r.id ∈ viewed)))).map mkPersonal) i = true ↔
      ((∃ r ∈ personal, r.id = i) ∧ i ∉ viewed) := by
    intro i
    rw [hasId_eq_true_iff]
    constructor
    · rintro ⟨e, he, hei⟩
      obtain ⟨r, hrf, rfl⟩ := List.mem_map.mp he
      obtain ⟨hrp, hrv⟩ := List.mem_filter.mp hrf
      have hrid : (mkPersonal r).id = r.id := rfl
      rw [hrid] at hei
      subst hei
      exact ⟨⟨r, hrp, rfl⟩, by simpa using hrv⟩
    · rintro ⟨⟨r, hrp, hri⟩, hiv⟩
      subst hri
      exact ⟨mkPersonal r, List.mem_map_of_mem _ (List.mem_filter.mpr ⟨hrp, by simpa using hiv⟩),
        rfl⟩
  have hpart1 : ∀ e ∈ ((personal.filter (fun r => !(decide (r.id ∈ viewed)))).map
      mkPersonal).map (augBy collab viewed),
      ∃ r ∈ personal, r.id ∉ viewed ∧ e = augBy collab viewed (mkPersonal r) := by
    intro e he
    obtain ⟨e1, he1, rfl⟩ := List.mem_map.mp he
    obtain ⟨r, hrf, rfl⟩ := List.mem_map.mp he1
    obtain ⟨hrp, hrv⟩ := List.mem_filter.mp hrf
    exact ⟨r, hrp, by simpa using hrv, rfl⟩
  have hpart2 : ∀ e ∈ newCollabEntries collab viewed
      ((personal.filter (fun r => !(decide (r.id ∈ viewed)))).map mkPersonal),
      ∃ c ∈ collab, c.id ∉ viewed ∧
        hasId ((personal.filter (fun r => !(decide (r.id ∈ viewed)))).map mkPersonal) c.id =
          false ∧ e = mkCollab c := by
    intro e he
    obtain ⟨c, hcf, rfl⟩ := List.mem_map.mp he
    obtain ⟨hcc, hcv⟩ := List.mem_filter.mp hcf
    rw [Bool.and_eq_true] at hcv
    refine ⟨c, hcc, by simpa using hcv.1, ?_, rfl⟩
    simpa using hcv.2
  have haug_mk_id : ∀ r : PersonalRec, (augBy collab viewed (mkPersonal r)).id = r.id := by
    intro r
    rw [augBy_id]
    rfl
  -- score of a personal-rooted entry with no collaborative match
  have hscore_only_p : ∀ r : PersonalRec, (∀ c ∈ collab, c.id ≠ r.id) →
      augBy collab viewed (mkPersonal r) = mkPersonal r := by
    intro r hno
    unfold augBy
    rw [collabFor_eq_none collab viewed (mkPersonal r).id (fun c hcm => hno c hcm)]
  -- score of a personal-rooted entry with a collaborative match
  have hscore_both : ∀ r : PersonalRec, r.id ∉ viewed → ∀ c ∈ collab, c.id = r.id →
      augBy collab viewed (mkPersonal r) = boostCollab (mkPersonal r) c := by
    intro r hrv c hcm hcid
    unfold augBy
    have hfind : collabFor collab viewed (mkPersonal r).id = some c := by
      unfold collabFor
      apply find?_eq_some_of_unique hcm
      · simp only [Bool.and_eq_true, beq_iff_eq]
        exact ⟨hcid, by simpa [hcid] using hrv⟩
      · intro b hbm hbp
        simp only [Bool.and_eq_true, beq_iff_eq] at hbp
        exact List.inj_on_of_nodup_map hc hbm hcm (hbp.1.trans hcid.symm)
    rw [hfind]
  refine ⟨?_, ?_, ?_, ?_, ?_, ?_⟩
  · -- (A) distinct output ids
    rw [(hperm.map (fun e => e.id)).nodup_iff]
    rw [List.map_append, List.nodup_append]
    refine ⟨by rw [ids_map_of_id_eq _ (augBy_id collab viewed)]; exact hm1ids, ?_, ?_⟩
    · have hcomp : (newCollabEntries collab viewed
          ((personal.filter (fun r => !(decide (r.id ∈ viewed)))).map mkPersonal)).map
          (fun e => e.id) =
          (collab.filter (fun c => !(decide (c.id ∈ viewed)) &&
            !(hasId ((personal.filter (fun r => !(decide (r.id ∈ viewed)))).map mkPersonal)
              c.id))).map (fun c => c.id) := by
        unfold newCollabEntries
        rw [List.map_map]
        rfl
      rw [hcomp]
      exact hc.sublist (List.Sublist.map _ (List.filter_sublist _))
    · intro x hx1 hx2
      rw [ids_map_of_id_eq _ (augBy_id collab viewed)] at hx1
      obtain ⟨e1, he1, he1x⟩ := List.mem_map.mp hx1
      obtain ⟨c, hcf, hcx⟩ := List.mem_map.mp hx2
      obtain ⟨c', hcc', hcv', hch', hce'⟩ := hpart2 _ hcf
      have hxc : x = c'.id := by rw [← hcx, hce']; rfl
      have : hasId ((personal.filter (fun r => !(decide (r.id ∈ viewed)))).map mkPersonal)
          c'.id = true := (hasId_eq_true_iff _ _).mpr ⟨e1, he1, by rw [he1x, hxc]⟩
      rw [hch'] at this
      exact Bool.noConfusion this
  · -- (B) exactly the non-viewed candidate ids
    intro i
    constructor
    · rintro ⟨e, he, rfl⟩
      rcases List.mem_append.mp (hperm.mem_iff.mp he) with h1 | h2
      · obtain ⟨r, hrp, hrv, rfl⟩ := hpart1 _ h1
        rw [haug_mk_id]
        exact ⟨Or.inl ⟨r, hrp, rfl⟩, hrv⟩
      · obtain ⟨c, hcc, hcv, _, rfl⟩ := hpart2 _ h2
        exact ⟨Or.inr ⟨c, hcc, rfl⟩, hcv⟩
    · rintro ⟨hor, hiv⟩
      by_cases hr : ∃ r ∈ personal, r.id = i
      · obtain ⟨r, hrp, hri⟩ := hr
        refine ⟨augBy collab viewed (mkPersonal r), hperm.mem_iff.mpr (List.mem_append.mpr
          (Or.inl (List.mem_map_of_mem _ (List.mem_map_of_mem _
            (List.mem_filter.mpr ⟨hrp, by simpa [hri] using hiv⟩))))), ?_⟩
        rw [haug_mk_id, hri]
      · obtain ⟨c, hcc, hci⟩ := hor.resolve_left hr
        have hno : hasId ((personal.filter (fun r => !(decide (r.id ∈ viewed)))).map
            mkPersonal) c.id = false := by
          rw [← Bool.not_eq_true, hm1has]
          rintro ⟨⟨r, hrp, hrc⟩, _⟩
          exact hr ⟨r, hrp, hrc.trans hci⟩
        have hpredc : (!decide (c.id ∈ viewed) &&
            !hasId ((personal.filter (fun r => !(decide (r.id ∈ viewed)))).map mkPersonal)
              c.id) = true := by
          rw [Bool.and_eq_true]
          exact ⟨by simpa [hci] using hiv, by rw [hno]; rfl⟩
        refine ⟨mkCollab c, hperm.mem_iff.mpr (List.mem_append.mpr (Or.inr
          (List.mem_map_of_mem _ (List.mem_filter.mpr ⟨hcc, hpredc⟩)))), hci⟩
  · -- (C) personal-only score
    intro e he r hrp hri hnoc
    rcases List.mem_append.mp (hperm.mem_iff.mp he) with h1 | h2
    · obtain ⟨r0, hr0p, hr0v, rfl⟩ := hpart1 _ h1
      have hid0 : r0.id = (augBy collab viewed (mkPersonal r0)).id := (haug_mk_id r0).symm
      have : r = r0 := List.inj_on_of_nodup_map hp hrp hr0p (by rw [hri, hid0])
      subst this
      rw [hscore_only_p r (fun c hcm => by rw [← hid0] at hnoc; exact hnoc c hcm)]
      rfl
    · obtain ⟨c0, hc0c, hc0v, hc0h, rfl⟩ := hpart2 _ h2
      exfalso
      have hize : (mkCollab c0).id = c0.id := rfl
      rw [hize] at hri
      have : hasId ((personal.filter (fun r => !(decide (r.id ∈ viewed)))).map mkPersonal)
          c0.id = true := (hm1has c0.id).mpr ⟨⟨r, hrp, hri⟩, hc0v⟩
      rw [hc0h] at this
      exact Bool.noConfusion this
  · -- (D) collaborative-only score
    intro e he c hcm hci hnor
    rcases List.mem_append.mp (hperm.mem_iff.mp he) with h1 | h2
    · obtain ⟨r0, hr0p, hr0v, rfl⟩ := hpart1 _ h1
      exact absurd (haug_mk_id r0).symm (hnor r0 hr0p)
    · obtain ⟨c0, hc0c, hc0v, hc0h, rfl⟩ := hpart2 _ h2
      have : c = c0 := List.inj_on_of_nodup_map hc hcm hc0c (by rw [hci]; rfl)
      subst this
      rfl
  · -- (E) item in both sums the contributions
    intro e he r hrp c hcm hri hci
    rcases List.mem_append.mp (hperm.mem_iff.mp he) with h1 | h2
    · obtain ⟨r0, hr0p, hr0v, rfl⟩ := hpart1 _ h1
      have hid0 : r0.id = (augBy collab viewed (mkPersonal r0)).id := (haug_mk_id r0).symm
      have hrr0 : r = r0 := List.inj_on_of_nodup_map hp hrp hr0p (by rw [hri, hid0])
      subst hrr0
      have hcid : c.id = r.id := by rw [hci, ← hid0]
      rw [hscore_both r hr0v c hcm hcid]
      rfl
    · obtain ⟨c0, hc0c, hc0v, hc0h, rfl⟩ := hpart2 _ h2
      exfalso
      have hize : (mkCollab c0).id = c0.id := rfl
      rw [hize] at hri
      have : hasId ((personal.filter (fun r => !(decide (r.id ∈ viewed)))).map mkPersonal)
          c0.id = true := (hm1has c0.id).mpr ⟨⟨r, hrp, hri⟩, hc0v⟩
      rw [hc0h] at this
      exact Bool.noConfusion this
  · -- (F) sorted by final_score descending
    rw [key]
    exact List.sorted_insertionSort finalDescRel _

/-- Witness for C3: the spec's worked example — `A` scored 0.8 personally
and 0.6 collaboratively, `B` scored 0.9 only personally. -/
theorem combine_recommendations_correct_witness :
    (([⟨"A", 8/10⟩, ⟨"B", 9/10⟩] : List PersonalRec).map (fun r => r.id)).Nodup ∧
    (([⟨"A", 6/10⟩] : List CollabRec).map (fun c => c.id)).Nodup ∧
    ((combine_recommendations [⟨"A", 8/10⟩, ⟨"B", 9/10⟩] [⟨"A", 6/10⟩] []).map
      (fun e => e.id)).Nodup ∧
    List.Pairwise (fun a b => b.final_score ≤ a.final_score)
      (combine_recommendations [⟨"A", 8/10⟩, ⟨"B", 9/10⟩] [⟨"A", 6/10⟩] []) :=
  ⟨by decide, by decide,
    (combine_recommendations_correct [⟨"A", 8/10⟩, ⟨"B", 9/10⟩] [⟨"A", 6/10⟩] []
      (by decide) (by decide)).1,
    (combine_recommendations_correct [⟨"A", 8/10⟩, ⟨"B", 9/10⟩] [⟨"A", 6/10⟩] []
      (by decide) (by decide)).2.2.2.2.2⟩

end RagApp

